import Mathlib

/-!
Verification of the crossword CSP solver in `generate.py`
(class `CrosswordCreator`).

The solver's operations (`enforce_node_consistency`, `revise`, `ac3`,
`assignment_complete`, `consistent`, `order_domain_values`,
`select_unassigned_variable`, `backtrack`, `solve`) are embedded below as
pure Lean functions; the mutable `self.domains` dictionary becomes an
explicitly passed store `Doms`, and the mutable `assignment` dictionary
becomes an association list threaded through `backtrack`.

The `Crossword` class itself (file `crossword.py`) is not part of the
sources; its data is modelled from the spec as an abstract structure
(`Crossword`) together with a well-formedness predicate (`Crossword.WF`)
capturing the spec's guarantees: the overlap relation is symmetric
(offset-swapped) and irreflexive, and the neighbor set of a variable is
exactly the set of other variables with a defined overlap.

Python strings become `List Char`; Python's `w[i]` becomes `List.getD i`
(the solver's arc-revision code guards every index by an explicit bounds
check, so the default is never read there).
-/

/-- Direction of a slot (`Variable.ACROSS` / `Variable.DOWN` in the source). -/
inductive Direction where
  | across
  | down
deriving DecidableEq

/-- Modelled from the spec: `class Variable` (file `crossword.py`, not in the
sources) — a slot is identified by start row, start column, direction and
length, with equality componentwise. -/
structure Variable where
  i : Nat
  j : Nat
  direction : Direction
  length : Nat
deriving DecidableEq

/-- A word; Python strings are modelled as lists of characters. -/
abbrev Word := List Char

/-- Modelled from the spec: `class Crossword` (file `crossword.py`, not in the
sources) — the puzzle model exposes the set of variables, the word
universe, the overlap relation (`none` when two slots do not intersect,
`some (i, j)` when the i-th letter of the first slot's word must equal the
j-th letter of the second slot's word), and the neighbor set of each
variable. The field `vars` models `crossword.variables` (that identifier is
reserved in Lean). -/
structure Crossword where
  vars : List Variable
  words : List Word
  overlaps : Variable → Variable → Option (Nat × Nat)
  neighborsOf : Variable → List Variable

/-- The domain store `self.domains`: candidate words per variable. -/
abbrev Doms := Variable → List Word

/-- `self.domains = {var: self.crossword.words.copy() for var in variables}`. -/
def initialDoms (cw : Crossword) : Doms := fun _ => cw.words

/-- Pointwise update of the domain store (mutation of `self.domains[x]`). -/
def updateDoms (d : Doms) (x : Variable) (dx : List Word) : Doms :=
  fun v => if v = x then dx else d v

/-- The condition `i < len(word_x) and j < len(word_y) and word_x[i] == word_y[j]`
from `revise`. -/
def matchAt (i j : Nat) (wx wy : Word) : Bool :=
  decide (i < wx.length) && decide (j < wy.length)
    && (wx.getD i 'A' == wy.getD j 'A')

/-- `any(... for word_y in dy)`: some word of `dy` is compatible with `wx`
at offsets `(i, j)`. -/
def hasSupport (dy : List Word) (i j : Nat) (wx : Word) : Bool :=
  dy.any (fun wy => matchAt i j wx wy)

/-- The loop body of `revise`: iterate over a copy of `domains[x]`
(first argument), removing each word without support from the current
domain (second argument), while tracking the `revised` flag. -/
def removeAll (f : Word → Bool) : List Word → List Word → Bool → List Word × Bool
  | [], dom, revised => (dom, revised)
  | wx :: rest, dom, revised =>
    if f wx then removeAll f rest dom revised
    else removeAll f rest (dom.erase wx) true

/-- `CrosswordCreator.revise(x, y)`: if `x` and `y` overlap at `(i, j)`,
remove from `domain(x)` every word with no support in `domain(y)`; return
the updated store together with the `revised` flag. -/
def revise (cw : Crossword) (d : Doms) (x y : Variable) : Doms × Bool :=
  match cw.overlaps x y with
  | none => (d, false)
  | some (i, j) =>
    let p := removeAll (hasSupport (d y) i j) (d x) (d x) false
    (updateDoms d x p.1, p.2)

/-- The seed worklist of `ac3` when `arcs is None`:
`[(x, y) for x in variables for y in variables if x != y]`. -/
def allArcs (cw : Crossword) : List (Variable × Variable) :=
  cw.vars.flatMap
    (fun x => (cw.vars.filter (fun y => ¬ (y = x))).map (fun y => (x, y)))

/-- The worklist loop of `CrosswordCreator.ac3`, with explicit fuel.
Exhausted fuel with a nonempty worklist reports `false`; with enough fuel
the loop always terminates before that, since each revision strictly
shrinks a finite domain. -/
def ac3Loop (cw : Crossword) : Nat → Doms → List (Variable × Variable) → Doms × Bool
  | 0, d, q => (d, q.isEmpty)
  | Nat.succ _, d, [] => (d, true)
  | Nat.succ fuel, d, (x, y) :: rest =>
    if (revise cw d x y).2 then
      if (revise cw d x y).1 x = [] then ((revise cw d x y).1, false)
      else
        ac3Loop cw fuel (revise cw d x y).1
          (rest ++ ((cw.neighborsOf x).filter (fun z => ¬ (z = y))).map (fun z => (z, x)))
    else ac3Loop cw fuel (revise cw d x y).1 rest

/-- `CrosswordCreator.ac3()` with the default worklist of all arcs. -/
def ac3 (cw : Crossword) (fuel : Nat) (d : Doms) : Doms × Bool :=
  ac3Loop cw fuel d (allArcs cw)

/-- In `enforce_node_consistency`, the per-variable body: compute the list
of words of the wrong length, then remove each from the domain. -/
def enforceNodeDom (v : Variable) (d : List Word) : List Word :=
  (d.filter (fun w => ¬ (w.length = v.length))).foldl (fun acc w => acc.erase w) d

/-- `CrosswordCreator.enforce_node_consistency()`. -/
def enforceNodeConsistency (d : Doms) : Doms :=
  fun v => enforceNodeDom v (d v)

/-- A (partial) assignment, modelled as an association list; `backtrack`
only ever adds a key that is not yet present, so keys are unique in every
reachable assignment. -/
abbrev Assignment := List (Variable × Word)

/-- `var in assignment` (dictionary key membership). -/
def isAssigned (a : Assignment) (v : Variable) : Bool :=
  a.any (fun p => p.1 = v)

/-- `CrosswordCreator.assignment_complete`:
`set(assignment.keys()) == set(self.crossword.variables)`. -/
def assignmentComplete (cw : Crossword) (a : Assignment) : Bool :=
  cw.vars.all (fun v => isAssigned a v)
    && a.all (fun p => p.1 ∈ cw.vars)

/-- `CrosswordCreator.consistent`: all assigned words pairwise distinct,
every word of its variable's length, and every overlapping assigned pair
agreeing at the overlap offsets. -/
def consistent (cw : Crossword) (a : Assignment) : Bool :=
  ((a.map Prod.snd).dedup.length = (a.map Prod.snd).length)
    && a.all (fun p => p.1.length = p.2.length)
    && a.all (fun p1 => a.all (fun p2 =>
        if p1.1 = p2.1 then true
        else
          match cw.overlaps p1.1 p2.1 with
          | none => true
          | some (i, j) => p1.2.getD i 'A' == p2.2.getD j 'A'))

/-- `count_conflicts(value)` inside `order_domain_values`: over the
unassigned neighbors of `var`, count the neighbor-domain words that
disagree with `value` at the overlap offsets. -/
def countConflicts (cw : Crossword) (d : Doms) (var : Variable) (a : Assignment)
    (value : Word) : Nat :=
  (cw.neighborsOf var).foldl
    (fun acc nb =>
      if isAssigned a nb then acc
      else
        match cw.overlaps var nb with
        | none => acc
        | some (i, j) =>
          acc + ((d nb).filter
            (fun nw => ¬ (value.getD i 'A' = nw.getD j 'A'))).length)
    0

/-- `CrosswordCreator.order_domain_values`: the domain of `var` sorted
ascending by conflict count. Python's `list.sort(key=...)` is a stable
sort, and a stable sort's output is uniquely determined by the comparator
and the input order, so the stable `List.insertionSort` computes exactly
the same list. -/
def orderDomainValues (cw : Crossword) (d : Doms) (var : Variable)
    (a : Assignment) : List Word :=
  (d var).insertionSort
    (fun w1 w2 => countConflicts cw d var a w1 ≤ countConflicts cw d var a w2)

/-- The comparator implied by Python's sort key
`(num_remaining_values(var), -len(neighbors(var)))`: lexicographic on
domain size, then on negated degree. -/
def selectLE (cw : Crossword) (d : Doms) (v1 v2 : Variable) : Bool :=
  decide ((d v1).length < (d v2).length)
    || (decide ((d v1).length = (d v2).length)
        && decide ((cw.neighborsOf v2).length ≤ (cw.neighborsOf v1).length))

/-- `CrosswordCreator.select_unassigned_variable`: sort the unassigned
variables by (domain size, -degree) — stably, as Python's sort does — and
take the first; `none` models the `IndexError` on an empty candidate list,
which is unreachable from `backtrack`. -/
def selectUnassignedVariable (cw : Crossword) (d : Doms) (a : Assignment) :
    Option Variable :=
  ((cw.vars.filter (fun v => ¬ (isAssigned a v = true))).insertionSort
    (fun v1 v2 => selectLE cw d v1 v2 = true)).head?

/-- The `for value in ...` loop of `backtrack`: for each candidate, check
`consistent(assignment)` (note: the *current* assignment, before the
candidate is added — exactly as the source does), add the candidate,
recurse, and keep a truthy result; otherwise undo and continue. -/
def tryValues (cw : Crossword) (rec : Assignment → Option Assignment)
    (a : Assignment) (var : Variable) : List Word → Option Assignment
  | [] => none
  | w :: ws =>
    if consistent cw a then
      match rec ((var, w) :: a) with
      | some r => if r.isEmpty then tryValues cw rec a var ws else some r
      | none => tryValues cw rec a var ws
    else tryValues cw rec a var ws

/-- `CrosswordCreator.backtrack`, with explicit fuel (the recursion depth
is bounded by the number of variables). -/
def backtrack (cw : Crossword) (d : Doms) : Nat → Assignment → Option Assignment
  | 0, _ => none
  | Nat.succ fuel, a =>
    if assignmentComplete cw a then some a
    else
      match selectUnassignedVariable cw d a with
      | none => none
      | some var =>
        tryValues cw (backtrack cw d fuel) a var (orderDomainValues cw d var a)

/-- `CrosswordCreator.solve`: node consistency, then `ac3` (whose Boolean
result the source discards), then backtracking from the empty assignment. -/
def solve (cw : Crossword) (fuelA fuelB : Nat) : Option Assignment :=
  let d1 := enforceNodeConsistency (initialDoms cw)
  let d2 := (ac3 cw fuelA d1).1
  backtrack cw d2 fuelB []

/-- Modelled from the spec: well-formedness of the puzzle model produced
by `crossword.py` — the overlap relation is offset-swapped symmetric and
irreflexive on the puzzle's variables, the neighbor set of a variable is
exactly the other variables with a defined overlap, and the word universe
is a set (no duplicates). -/
def Crossword.WF (cw : Crossword) : Prop :=
  (∀ x ∈ cw.vars, ∀ y ∈ cw.vars,
      cw.overlaps y x = (cw.overlaps x y).map (fun p => (p.2, p.1)))
  ∧ (∀ x ∈ cw.vars, cw.overlaps x x = none)
  ∧ (∀ x ∈ cw.vars, ∀ y ∈ cw.neighborsOf x,
      y ∈ cw.vars ∧ ¬ (y = x) ∧ (cw.overlaps x y).isSome = true)
  ∧ (∀ x ∈ cw.vars, ∀ y ∈ cw.vars,
      ¬ (y = x) → (cw.overlaps x y).isSome = true → y ∈ cw.neighborsOf x)
  ∧ cw.words.Nodup

instance (cw : Crossword) : Decidable cw.WF := by
  unfold Crossword.WF
  infer_instance

/-- Arc consistency of `x` with respect to `y`: every word remaining in
the domain of `x` has a compatible word in the domain of `y` at the
overlap offsets. -/
def arcOK (cw : Crossword) (d : Doms) (x y : Variable) : Prop :=
  ∀ i j, cw.overlaps x y = some (i, j) →
    ∀ wx ∈ d x, ∃ wy ∈ d y, matchAt i j wx wy = true

/-- Invariant of the AC-3 worklist loop: every arc between puzzle
variables is either still queued or already consistent. -/
def InvAC (cw : Crossword) (d : Doms) (q : List (Variable × Variable)) : Prop :=
  ∀ x y, x ∈ cw.vars → y ∈ cw.vars → (cw.overlaps x y).isSome = true →
    ((x, y) ∈ q ∨ arcOK cw d x y)

/- Concrete puzzles used to witness the theorems below and to exhibit the
behaviour of `solve` on unsolvable input. -/

/-- A 3-letter across slot starting at (0,0). -/
def vA : Variable := ⟨0, 0, Direction.across, 3⟩

/-- A 3-letter down slot starting at (0,1); crosses `vA`. -/
def vD : Variable := ⟨0, 1, Direction.down, 3⟩

/-- A 3-letter across slot starting at (2,0); disjoint from `vA`. -/
def vB : Variable := ⟨2, 0, Direction.across, 3⟩

def wcat : Word := ['c', 'a', 't']

def wace : Word := ['a', 'c', 'e']

/-- Two crossing slots (`vA` horizontal, `vD` vertical, sharing cell
(0,1)), universe {"cat", "ace"}: the spec's concrete scenario 2. -/
def exCross : Crossword where
  vars := [vA, vD]
  words := [wcat, wace]
  overlaps := fun a b =>
    if a = vA ∧ b = vD then some (1, 0)
    else if a = vD ∧ b = vA then some (0, 1)
    else none
  neighborsOf := fun v => if v = vA then [vD] else if v = vD then [vA] else []

/-- Two disjoint slots of length 3 with the one-word universe {"cat"}:
unsolvable, because a consistent assignment needs two distinct words. -/
def exTwo : Crossword where
  vars := [vA, vB]
  words := [wcat]
  overlaps := fun _ _ => none
  neighborsOf := fun _ => []

/- ------------------------------------------------------------------ -/
/- Lemmas about the removal loop shared by revise / node consistency.  -/
/- ------------------------------------------------------------------ -/

theorem removeAll_fst_subset (f : Word → Bool) :
    ∀ (l dom : List Word) (r : Bool), (removeAll f l dom r).1 ⊆ dom := by
  intro l
  induction l with
  | nil => intro dom r; exact fun _ h => h
  | cons w t ih =>
    intro dom r
    simp only [removeAll]
    by_cases hf : f w = true
    · simp only [hf, if_true]
      exact ih dom r
    · simp only [hf, if_false]
      exact fun u hu => List.erase_subset _ _ (ih (dom.erase w) true hu)

theorem removeAll_fst_nodup (f : Word → Bool) :
    ∀ (l dom : List Word) (r : Bool), dom.Nodup → (removeAll f l dom r).1.Nodup := by
  intro l
  induction l with
  | nil => intro dom r h; exact h
  | cons w t ih =>
    intro dom r h
    simp only [removeAll]
    by_cases hf : f w = true
    · simp only [hf, if_true]; exact ih dom r h
    · simp only [hf, if_false]; exact ih (dom.erase w) true (h.erase w)

theorem removeAll_eq_filter (f : Word → Bool) :
    ∀ (l kept : List Word) (r : Bool), (kept ++ l).Nodup →
      (∀ w ∈ kept, f w = true) →
      removeAll f l (kept ++ l) r
        = ((kept ++ l).filter f, r || l.any (fun w => !f w)) := by
  intro l
  induction l with
  | nil =>
    intro kept r hnd hkept
    simp only [removeAll, List.append_nil, List.any_nil, Bool.or_false]
    rw [List.filter_eq_self.mpr hkept]
  | cons w t ih =>
    intro kept r hnd hkept
    simp only [removeAll]
    by_cases hf : f w = true
    · simp only [hf, if_true]
      have h1 : kept ++ w :: t = (kept ++ [w]) ++ t := by simp
      have h2 := ih (kept ++ [w]) r (by rw [← h1]; exact hnd)
        (by intro u hu
            rcases List.mem_append.mp hu with h | h
            · exact hkept u h
            · rcases List.mem_singleton.mp h with rfl; exact hf)
      rw [h1, h2]
      simp [hf]
    · simp only [hf, if_false]
      have hwk : w ∉ kept := by
        intro hmem
        have : (kept ++ w :: t).Nodup := hnd
        rw [List.nodup_append] at this
        exact this.2.2 hmem (List.mem_cons_self w t)
      have herase : (kept ++ w :: t).erase w = kept ++ t := by
        rw [List.erase_append_right _ hwk, List.erase_cons_head]
      rw [herase]
      have hnd2 : (kept ++ t).Nodup := by
        have : (kept ++ t).Sublist (kept ++ w :: t) :=
          List.Sublist.append_left (List.sublist_cons_self w t) kept
        exact this.nodup hnd
      have h2 := ih kept true hnd2 hkept
      rw [h2]
      simp [hf, List.filter_append]

theorem removeAll_self_eq (f : Word → Bool) (d : List Word) (hnd : d.Nodup) :
    removeAll f d d false = (d.filter f, d.any (fun w => !f w)) := by
  have h := removeAll_eq_filter f d [] false (by simpa using hnd) (by simp)
  simpa using h

/- ------------------------------------------------------------------ -/
/- Lemmas about revise.                                                -/
/- ------------------------------------------------------------------ -/

theorem revise_fst_subset (cw : Crossword) (d : Doms) (x y : Variable) :
    ∀ v, (revise cw d x y).1 v ⊆ d v := by
  intro v
  unfold revise
  cases hov : cw.overlaps x y with
  | none => exact fun _ h => h
  | some p =>
    rcases p with ⟨i, j⟩
    simp only [updateDoms]
    by_cases hv : v = x
    · subst hv
      simp only [if_pos rfl]
      exact removeAll_fst_subset _ _ _ _
    · simp only [if_neg hv]
      exact fun _ h => h

theorem revise_frame (cw : Crossword) (d : Doms) (x y v : Variable)
    (hv : ¬ (v = x)) : (revise cw d x y).1 v = d v := by
  unfold revise
  cases hov : cw.overlaps x y with
  | none => rfl
  | some p =>
    rcases p with ⟨i, j⟩
    simp only [updateDoms, if_neg hv]

theorem revise_of_no_overlap (cw : Crossword) (d : Doms) (x y : Variable)
    (hov : cw.overlaps x y = none) : revise cw d x y = (d, false) := by
  unfold revise
  rw [hov]

theorem revise_dom_char (cw : Crossword) (d : Doms) (x y : Variable)
    (i j : Nat) (hov : cw.overlaps x y = some (i, j)) (hnd : (d x).Nodup) :
    (revise cw d x y).1 x = (d x).filter (hasSupport (d y) i j)
      ∧ (revise cw d x y).2 = (d x).any (fun w => !hasSupport (d y) i j w) := by
  unfold revise
  rw [hov]
  simp only [updateDoms, if_pos rfl]
  rw [removeAll_self_eq _ _ hnd]
  exact ⟨rfl, rfl⟩

theorem revise_fst_nodup (cw : Crossword) (d : Doms) (x y : Variable)
    (hnd : ∀ v, (d v).Nodup) : ∀ v, ((revise cw d x y).1 v).Nodup := by
  intro v
  unfold revise
  cases hov : cw.overlaps x y with
  | none => exact hnd v
  | some p =>
    rcases p with ⟨i, j⟩
    simp only [updateDoms]
    by_cases hv : v = x
    · simp only [if_pos hv]
      exact removeAll_fst_nodup _ _ _ _ (hnd x)
    · simp only [if_neg hv]
      exact hnd v

theorem matchAt_iff (i j : Nat) (wx wy : Word) :
    matchAt i j wx wy = true
      ↔ i < wx.length ∧ j < wy.length ∧ wx.getD i 'A' = wy.getD j 'A' := by
  simp [matchAt, and_assoc]

theorem hasSupport_iff (dy : List Word) (i j : Nat) (wx : Word) :
    hasSupport dy i j wx = true ↔ ∃ wy ∈ dy, matchAt i j wx wy = true := by
  simp [hasSupport]

theorem arcOK_congr (cw : Crossword) (d1 d2 : Doms) (x y : Variable)
    (h : ∀ v, d1 v = d2 v) (hok : arcOK cw d1 x y) : arcOK cw d2 x y := by
  intro i j hov wx hwx
  rw [← h x] at hwx
  rcases hok i j hov wx hwx with ⟨wy, hwy, hm⟩
  exact ⟨wy, by rw [← h y]; exact hwy, hm⟩

theorem arcOK_mono (cw : Crossword) (d1 d2 : Doms) (x y : Variable)
    (hx : d2 x ⊆ d1 x) (hy : d2 y = d1 y) (hok : arcOK cw d1 x y) :
    arcOK cw d2 x y := by
  intro i j hov wx hwx
  rcases hok i j hov wx (hx hwx) with ⟨wy, hwy, hm⟩
  exact ⟨wy, by rw [hy]; exact hwy, hm⟩

theorem revise_establishes_arcOK (cw : Crossword) (d : Doms) (x y : Variable)
    (hxy : ¬ (y = x)) (hnd : (d x).Nodup) :
    arcOK cw (revise cw d x y).1 x y := by
  intro i j hov wx hwx
  rcases revise_dom_char cw d x y i j hov hnd with ⟨hdom, _⟩
  rw [hdom] at hwx
  have hsupp := List.of_mem_filter hwx
  rw [hasSupport_iff] at hsupp
  rcases hsupp with ⟨wy, hwy, hm⟩
  refine ⟨wy, ?_, hm⟩
  rw [revise_frame cw d x y y hxy]
  exact hwy

theorem revise_false_arcOK (cw : Crossword) (d : Doms) (x y : Variable)
    (hnd : (d x).Nodup) (hfalse : (revise cw d x y).2 = false) :
    arcOK cw d x y := by
  intro i j hov wx hwx
  rcases revise_dom_char cw d x y i j hov hnd with ⟨_, hflag⟩
  rw [hflag] at hfalse
  have := List.any_eq_false.mp hfalse wx hwx
  rw [Bool.not_eq_true', Bool.not_eq_false] at this
  rw [hasSupport_iff] at this
  exact this

theorem revise_false_doms (cw : Crossword) (d : Doms) (x y : Variable)
    (hnd : (d x).Nodup) (hfalse : (revise cw d x y).2 = false) :
    ∀ v, (revise cw d x y).1 v = d v := by
  intro v
  by_cases hv : v = x
  · subst hv
    cases hov : cw.overlaps v y with
    | none => rw [revise_of_no_overlap cw d v y hov]
    | some p =>
      rcases p with ⟨i, j⟩
      rcases revise_dom_char cw d v y i j hov hnd with ⟨hdom, hflag⟩
      rw [hflag] at hfalse
      rw [hdom, List.filter_eq_self]
      intro w hw
      have := List.any_eq_false.mp hfalse w hw
      rw [Bool.not_eq_true', Bool.not_eq_false] at this
      exact this
  · exact revise_frame cw d x y v hv

theorem revise_preserves_reverse_arc (cw : Crossword) (d : Doms)
    (x y : Variable) (i j : Nat) (hov : cw.overlaps x y = some (i, j))
    (hvo : cw.overlaps y x = some (j, i)) (hxy : ¬ (y = x))
    (hnd : (d x).Nodup) (hok : arcOK cw d y x) :
    arcOK cw (revise cw d x y).1 y x := by
  intro j' i' hov' wy hwy
  rw [hvo] at hov'
  rcases Option.some.inj hov' with hji
  have hj : j = j' := (Prod.mk.injEq _ _ _ _).mp hji |>.1
  have hi : i = i' := (Prod.mk.injEq _ _ _ _).mp hji |>.2
  subst hj; subst hi
  rw [revise_frame cw d x y y hxy] at hwy
  rcases hok j i hvo wy hwy with ⟨wx, hwx, hm⟩
  rw [matchAt_iff] at hm
  rcases hm with ⟨hjlt, hilt, heq⟩
  refine ⟨wx, ?_, ?_⟩
  · rcases revise_dom_char cw d x y i j hov hnd with ⟨hdom, _⟩
    rw [hdom]
    rw [List.mem_filter]
    refine ⟨hwx, ?_⟩
    rw [hasSupport_iff]
    refine ⟨wy, hwy, ?_⟩
    rw [matchAt_iff]
    exact ⟨hilt, hjlt, heq.symm⟩
  · rw [matchAt_iff]
    exact ⟨hjlt, hilt, heq⟩

/- ------------------------------------------------------------------ -/
/- Well-formedness projections.                                        -/
/- ------------------------------------------------------------------ -/

theorem Crossword.WF.overlap_symm {cw : Crossword} (h : cw.WF) {x y : Variable}
    {i j : Nat} (hx : x ∈ cw.vars) (hy : y ∈ cw.vars)
    (hov : cw.overlaps x y = some (i, j)) : cw.overlaps y x = some (j, i) := by
  have hs := h.1 x hx y hy
  rw [hov] at hs
  simpa using hs

theorem Crossword.WF.overlap_ne {cw : Crossword} (h : cw.WF) {x y : Variable}
    (hx : x ∈ cw.vars) (hov : (cw.overlaps x y).isSome = true) : ¬ (y = x) := by
  intro heq
  rw [heq, h.2.1 x hx] at hov
  simp at hov

theorem Crossword.WF.mem_neighbors {cw : Crossword} (h : cw.WF) {x y : Variable}
    (hx : x ∈ cw.vars) (hy : y ∈ cw.vars) (hne : ¬ (y = x))
    (hov : (cw.overlaps x y).isSome = true) : y ∈ cw.neighborsOf x :=
  h.2.2.2.1 x hx y hy hne hov

theorem Crossword.WF.neighbors_spec {cw : Crossword} (h : cw.WF) {x y : Variable}
    (hx : x ∈ cw.vars) (hy : y ∈ cw.neighborsOf x) :
    y ∈ cw.vars ∧ ¬ (y = x) ∧ (cw.overlaps x y).isSome = true :=
  h.2.2.1 x hx y hy

/- ------------------------------------------------------------------ -/
/- AC-3 soundness and monotonicity.                                    -/
/- ------------------------------------------------------------------ -/

theorem mem_allArcs (cw : Crossword) (x y : Variable) :
    (x, y) ∈ allArcs cw ↔ x ∈ cw.vars ∧ y ∈ cw.vars ∧ ¬ (y = x) := by
  simp only [allArcs, List.mem_flatMap, List.mem_map, List.mem_filter,
    decide_eq_true_eq, Prod.mk.injEq]
  constructor
  · rintro ⟨a, ha, b, ⟨hb, hne⟩, rfl, rfl⟩
    exact ⟨ha, hb, hne⟩
  · rintro ⟨hx, hy, hne⟩
    exact ⟨x, hx, y, ⟨hy, hne⟩, rfl, rfl⟩

theorem InvAC_init (cw : Crossword) (hwf : cw.WF) (d : Doms) :
    InvAC cw d (allArcs cw) := by
  intro x y hx hy hov
  left
  rw [mem_allArcs]
  exact ⟨hx, hy, hwf.overlap_ne hx hov⟩

theorem ac3Loop_fst_subset (cw : Crossword) :
    ∀ (fuel : Nat) (d : Doms) (q : List (Variable × Variable)) (v : Variable),
      (ac3Loop cw fuel d q).1 v ⊆ d v := by
  intro fuel
  induction fuel with
  | zero => intro d q v; exact fun _ h => h
  | succ fuel ih =>
    intro d q v
    cases q with
    | nil => exact fun _ h => h
    | cons arc rest =>
      rcases arc with ⟨a, b⟩
      simp only [ac3Loop]
      by_cases h2 : (revise cw d a b).2 = true
      · rw [if_pos h2]
        by_cases h3 : (revise cw d a b).1 a = []
        · rw [if_pos h3]
          exact revise_fst_subset cw d a b v
        · rw [if_neg h3]
          exact fun u hu => revise_fst_subset cw d a b v (ih _ _ v hu)
      · rw [if_neg h2]
        exact fun u hu => revise_fst_subset cw d a b v (ih _ _ v hu)

theorem ac3Loop_sound (cw : Crossword) (hwf : cw.WF) :
    ∀ (fuel : Nat) (d : Doms) (q : List (Variable × Variable)),
      (∀ v, (d v).Nodup) → InvAC cw d q →
      (ac3Loop cw fuel d q).2 = true →
      ∀ x y, x ∈ cw.vars → y ∈ cw.vars → (cw.overlaps x y).isSome = true →
        arcOK cw (ac3Loop cw fuel d q).1 x y := by
  intro fuel
  induction fuel with
  | zero =>
    intro d q hnd hinv htrue x y hx hy hov
    simp only [ac3Loop] at htrue ⊢
    have hq : q = [] := List.isEmpty_iff.mp htrue
    rcases hinv x y hx hy hov with h | h
    · rw [hq] at h; cases h
    · exact h
  | succ fuel ih =>
    intro d q hnd hinv htrue x y hx hy hov
    cases q with
    | nil =>
      simp only [ac3Loop] at htrue ⊢
      rcases hinv x y hx hy hov with h | h
      · cases h
      · exact h
    | cons arc rest =>
      rcases arc with ⟨a, b⟩
      simp only [ac3Loop] at htrue ⊢
      by_cases h2 : (revise cw d a b).2 = true
      · rw [if_pos h2] at htrue ⊢
        by_cases h3 : (revise cw d a b).1 a = []
        · rw [if_pos h3] at htrue; simp at htrue
        · rw [if_neg h3] at htrue ⊢
          refine ih (revise cw d a b).1 _ (revise_fst_nodup cw d a b hnd)
            ?_ htrue x y hx hy hov
          intro u v hu hv huv
          rcases hinv u v hu hv huv with hq | hok
          · rcases List.mem_cons.mp hq with heq | hrest
            · have hua : u = a := congrArg Prod.fst heq
              have hvb : v = b := congrArg Prod.snd heq
              subst hua; subst hvb
              right
              exact revise_establishes_arcOK cw d u v
                (hwf.overlap_ne hu huv) (hnd u)
            · left; exact List.mem_append_left _ hrest
          · by_cases hva : v = a
            · subst hva
              have hvu : (cw.overlaps v u).isSome = true := by
                rcases Option.isSome_iff_exists.mp huv with ⟨p, hp⟩
                rcases p with ⟨jj, ii⟩
                rw [hwf.overlap_symm hu hv hp]
                rfl
              have hne_uv : ¬ (u = v) := hwf.overlap_ne hv hvu
              by_cases hub : u = b
              · subst hub
                right
                rcases Option.isSome_iff_exists.mp huv with ⟨p, hp⟩
                rcases p with ⟨jj, ii⟩
                have hab : cw.overlaps v u = some (ii, jj) :=
                  hwf.overlap_symm hu hv hp
                exact revise_preserves_reverse_arc cw d v u ii jj hab hp
                  hne_uv (hnd v) hok
              · left
                apply List.mem_append_right
                have hnb : u ∈ (cw.neighborsOf v).filter (fun z => ¬ (z = b)) := by
                  rw [List.mem_filter]
                  exact ⟨hwf.mem_neighbors hv hu hne_uv hvu, by simpa using hub⟩
                exact List.mem_map.mpr ⟨u, hnb, rfl⟩
            · right
              refine arcOK_mono cw d (revise cw d a b).1 u v ?_ ?_ hok
              · exact revise_fst_subset cw d a b u
              · exact revise_frame cw d a b v hva
      · rw [if_neg h2] at htrue ⊢
        have h2f : (revise cw d a b).2 = false := Bool.not_eq_true _ |>.mp h2
        have hpt := revise_false_doms cw d a b (hnd a) h2f
        refine ih (revise cw d a b).1 rest (revise_fst_nodup cw d a b hnd)
          ?_ htrue x y hx hy hov
        intro u v hu hv huv
        rcases hinv u v hu hv huv with hq | hok
        · rcases List.mem_cons.mp hq with heq | hrest
          · have hua : u = a := congrArg Prod.fst heq
            have hvb : v = b := congrArg Prod.snd heq
            subst hua; subst hvb
            right
            exact arcOK_congr cw d (revise cw d u v).1 u v
              (fun w => (hpt w).symm) (revise_false_arcOK cw d u v (hnd u) h2f)
          · left; exact hrest
        · right
          exact arcOK_congr cw d (revise cw d a b).1 u v
            (fun w => (hpt w).symm) hok

/- ------------------------------------------------------------------ -/
/- Node consistency.                                                   -/
/- ------------------------------------------------------------------ -/

theorem foldl_erase_cons (w : Word) :
    ∀ (bs t : List Word), (∀ b ∈ bs, ¬ (b = w)) →
      bs.foldl (fun acc x => acc.erase x) (w :: t)
        = w :: bs.foldl (fun acc x => acc.erase x) t := by
  intro bs
  induction bs with
  | nil => intro t _; rfl
  | cons b bs ih =>
    intro t hne
    simp only [List.foldl_cons]
    rw [List.erase_cons_tail
      (by simp only [beq_iff_eq]
          exact fun h => hne b (List.mem_cons_self b bs) h.symm)]
    exact ih (t.erase b) (fun u hu => hne u (List.mem_cons_of_mem b hu))

theorem foldl_erase_filter (p : Word → Bool) :
    ∀ (d : List Word),
      (d.filter (fun w => !p w)).foldl (fun acc w => acc.erase w) d
        = d.filter p := by
  intro d
  induction d with
  | nil => rfl
  | cons w t ih =>
    by_cases hp : p w = true
    · have hfilter : (w :: t).filter (fun x => !p x) = t.filter (fun x => !p x) := by
        simp [List.filter_cons, hp]
      have hfilter2 : (w :: t).filter p = w :: t.filter p := by
        simp [List.filter_cons, hp]
      rw [hfilter, hfilter2]
      rw [foldl_erase_cons w (t.filter (fun x => !p x)) t ?hne]
      · rw [ih]
      case hne =>
        intro b hb heq
        subst heq
        have := List.of_mem_filter hb
        simp [hp] at this
    · have hpf : p w = false := Bool.not_eq_true _ |>.mp hp
      have hfilter : (w :: t).filter (fun x => !p x) = w :: t.filter (fun x => !p x) := by
        simp [List.filter_cons, hpf]
      have hfilter2 : (w :: t).filter p = t.filter p := by
        simp [List.filter_cons, hpf]
      rw [hfilter, hfilter2, List.foldl_cons, List.erase_cons_head]
      exact ih

theorem enforceNodeDom_eq (v : Variable) (d : List Word) :
    enforceNodeDom v d = d.filter (fun w => w.length = v.length) := by
  unfold enforceNodeDom
  have hcongr : d.filter (fun w => ¬ (w.length = v.length))
      = d.filter (fun w => !(decide (w.length = v.length))) := by
    apply List.filter_congr
    intro w _
    simp only [decide_not]
  rw [hcongr]
  exact foldl_erase_filter (fun w => decide (w.length = v.length)) d

/- ------------------------------------------------------------------ -/
/- Variable selection and value ordering.                              -/
/- ------------------------------------------------------------------ -/

theorem selectLE_total (cw : Crossword) (d : Doms) (v1 v2 : Variable) :
    selectLE cw d v1 v2 = true ∨ selectLE cw d v2 v1 = true := by
  simp only [selectLE, Bool.or_eq_true, Bool.and_eq_true, decide_eq_true_eq]
  omega

theorem selectLE_trans (cw : Crossword) (d : Doms) (v1 v2 v3 : Variable)
    (h1 : selectLE cw d v1 v2 = true) (h2 : selectLE cw d v2 v3 = true) :
    selectLE cw d v1 v3 = true := by
  simp only [selectLE, Bool.or_eq_true, Bool.and_eq_true, decide_eq_true_eq]
    at h1 h2 ⊢
  omega

/-- C7: on any incomplete assignment over the puzzle's variables,
`select_unassigned_variable` returns an unassigned variable whose domain
size is minimal among the unassigned variables, with maximal degree among
those of minimal domain size (ties broken arbitrarily). -/
theorem select_unassigned_variable_spec (cw : Crossword) (d : Doms)
    (a : Assignment) (hkeys : ∀ p ∈ a, p.1 ∈ cw.vars)
    (hinc : assignmentComplete cw a = false) :
    ∃ v, selectUnassignedVariable cw d a = some v ∧ v ∈ cw.vars
      ∧ isAssigned a v = false
      ∧ ∀ u ∈ cw.vars, isAssigned a u = false →
          ((d v).length < (d u).length
            ∨ ((d v).length = (d u).length
                ∧ (cw.neighborsOf u).length ≤ (cw.neighborsOf v).length)) := by
  have hex : ∃ v ∈ cw.vars, ¬ (isAssigned a v = true) := by
    by_contra hall
    push_neg at hall
    have h1 : cw.vars.all (fun v => isAssigned a v) = true :=
      List.all_eq_true.mpr (fun v hv => hall v hv)
    have h2 : a.all (fun p => p.1 ∈ cw.vars) = true :=
      List.all_eq_true.mpr (fun p hp => decide_eq_true (hkeys p hp))
    rw [assignmentComplete, h1, h2] at hinc
    simp at hinc
  have hlne : cw.vars.filter (fun v => ¬ (isAssigned a v = true)) ≠ [] := by
    rcases hex with ⟨v, hv, hnv⟩
    intro hnil
    have hmem : v ∈ cw.vars.filter (fun v => ¬ (isAssigned a v = true)) :=
      List.mem_filter.mpr ⟨hv, by simpa using hnv⟩
    rw [hnil] at hmem
    cases hmem
  have hsp : (cw.vars.filter (fun v => ¬ (isAssigned a v = true))).insertionSort
      (fun v1 v2 => selectLE cw d v1 v2 = true)
      |>.Perm (cw.vars.filter (fun v => ¬ (isAssigned a v = true))) :=
    List.perm_insertionSort _ _
  have hsort : List.Sorted (fun v1 v2 => selectLE cw d v1 v2 = true)
      ((cw.vars.filter (fun v => ¬ (isAssigned a v = true))).insertionSort
        (fun v1 v2 => selectLE cw d v1 v2 = true)) := by
    haveI : IsTotal Variable (fun v1 v2 => selectLE cw d v1 v2 = true) :=
      ⟨selectLE_total cw d⟩
    haveI : IsTrans Variable (fun v1 v2 => selectLE cw d v1 v2 = true) :=
      ⟨selectLE_trans cw d⟩
    exact List.sorted_insertionSort _ _
  rcases hs : (cw.vars.filter (fun v => ¬ (isAssigned a v = true))).insertionSort
      (fun v1 v2 => selectLE cw d v1 v2 = true) with _ | ⟨v, t⟩
  · rw [hs] at hsp
    exact absurd (hsp.symm.eq_nil) hlne
  · rw [hs] at hsp hsort
    have hv_mem : v ∈ cw.vars.filter (fun v => ¬ (isAssigned a v = true)) :=
      hsp.subset (List.mem_cons_self v t)
    refine ⟨v, ?_, (List.mem_filter.mp hv_mem).1, ?_, ?_⟩
    · rw [selectUnassignedVariable, hs]
      rfl
    · have := (List.mem_filter.mp hv_mem).2
      simpa using this
    · intro u hu hua
      have hu_l : u ∈ cw.vars.filter (fun v => ¬ (isAssigned a v = true)) :=
        List.mem_filter.mpr ⟨hu, by simp [hua]⟩
      have hu_s : u ∈ v :: t := hsp.mem_iff.mpr hu_l
      rcases List.mem_cons.mp hu_s with rfl | hu_t
      · right
        exact ⟨rfl, Nat.le_refl _⟩
      · have hle : selectLE cw d v u = true :=
          (List.sorted_cons.mp hsort).1 u hu_t
        simp only [selectLE, Bool.or_eq_true, Bool.and_eq_true,
          decide_eq_true_eq] at hle
        exact hle

/-- C8: `order_domain_values` returns the current domain of the variable
as a list (a permutation of it) sorted ascending by total conflict count
over unassigned neighbors; being a pure function of the store, it mutates
neither the domains nor the assignment. -/
theorem order_domain_values_spec (cw : Crossword) (d : Doms) (var : Variable)
    (a : Assignment) :
    (orderDomainValues cw d var a).Perm (d var)
      ∧ List.Pairwise
          (fun w1 w2 => countConflicts cw d var a w1 ≤ countConflicts cw d var a w2)
          (orderDomainValues cw d var a) := by
  constructor
  · exact List.perm_insertionSort _ _
  · haveI : IsTotal Word
        (fun w1 w2 => countConflicts cw d var a w1 ≤ countConflicts cw d var a w2) :=
      ⟨fun u w => Nat.le_total _ _⟩
    haveI : IsTrans Word
        (fun w1 w2 => countConflicts cw d var a w1 ≤ countConflicts cw d var a w2) :=
      ⟨fun u w z h1 h2 => Nat.le_trans h1 h2⟩
    exact List.sorted_insertionSort _ _

/- ------------------------------------------------------------------ -/
/- Claim theorems.                                                     -/
/- ------------------------------------------------------------------ -/

/-- C9: `enforce_node_consistency` is idempotent — applying it twice
yields exactly the domains of applying it once — and each resulting
domain is the words whose length equals the variable's length. -/
theorem enforce_node_consistency_idempotent (d : Doms) (v : Variable) :
    enforceNodeConsistency (enforceNodeConsistency d) v
        = enforceNodeConsistency d v
      ∧ enforceNodeConsistency d v
        = (d v).filter (fun w => w.length = v.length) := by
  have hchar : ∀ (e : Doms) (u : Variable),
      enforceNodeConsistency e u = (e u).filter (fun w => w.length = u.length) :=
    fun e u => enforceNodeDom_eq u (e u)
  constructor
  · rw [hchar, hchar, List.filter_filter]
    apply List.filter_congr
    intro w _
    simp
  · exact hchar d v

/-- C4: when `x` and `y` overlap at `(i, j)`, `revise(x, y)` removes from
the domain of `x` exactly the words with no in-range matching partner in
the domain of `y`, and reports `true` iff some word was removed; with no
overlap it changes nothing and reports `false`. -/
theorem revise_spec (cw : Crossword) (d : Doms) (x y : Variable)
    (hnd : (d x).Nodup) :
    (∀ i j, cw.overlaps x y = some (i, j) →
      (∀ w, w ∈ (revise cw d x y).1 x
          ↔ (w ∈ d x ∧ ∃ wy ∈ d y, matchAt i j w wy = true))
      ∧ ((revise cw d x y).2 = true
          ↔ ∃ w ∈ d x, ∀ wy ∈ d y, matchAt i j w wy = false))
    ∧ (cw.overlaps x y = none
        → (revise cw d x y).1 = d ∧ (revise cw d x y).2 = false) := by
  constructor
  · intro i j hov
    rcases revise_dom_char cw d x y i j hov hnd with ⟨hdom, hflag⟩
    constructor
    · intro w
      rw [hdom, List.mem_filter, hasSupport_iff]
    · rw [hflag]
      simp only [List.any_eq_true, Bool.not_eq_true', hasSupport,
        List.any_eq_false, Bool.not_eq_true]
  · intro hov
    rw [revise_of_no_overlap cw d x y hov]
    exact ⟨rfl, rfl⟩

/-- Witness for C4 at a concrete instance: the crossing puzzle, arc
(vA, vD) with overlap (1, 0), candidate word "cat". -/
theorem revise_spec_at_instance :
    wcat ∈ (revise exCross (initialDoms exCross) vA vD).1 vA
      ↔ (wcat ∈ initialDoms exCross vA
          ∧ ∃ wy ∈ initialDoms exCross vD, matchAt 1 0 wcat wy = true) :=
  ((revise_spec exCross (initialDoms exCross) vA vD (by decide)).1 1 0
    (by decide)).1 wcat

/-- C10: `revise(x, y)` mutates only the domain of `x`: every other
variable's domain is unchanged (and the puzzle model, which `revise`
only reads, is untouched). -/
theorem revise_mutates_only_x (cw : Crossword) (d : Doms) (x y v : Variable)
    (hv : ¬ (v = x)) : (revise cw d x y).1 v = d v :=
  revise_frame cw d x y v hv

/-- Witness for C10 at a concrete instance: revising (vA, vD) leaves the
domain of vD unchanged. -/
theorem revise_mutates_only_x_at_instance :
    (revise exCross (initialDoms exCross) vA vD).1 vD = initialDoms exCross vD :=
  revise_mutates_only_x exCross (initialDoms exCross) vA vD vD (by decide)

/-- C6: domains only shrink — both node consistency and AC-3 only remove
words; no word is ever added back to a domain. -/
theorem domains_only_shrink (cw : Crossword) (fuel : Nat) (d : Doms) :
    (∀ v w, w ∈ enforceNodeConsistency d v → w ∈ d v)
      ∧ (∀ v w, w ∈ (ac3 cw fuel d).1 v → w ∈ d v) := by
  constructor
  · intro v w hw
    have hchar : enforceNodeConsistency d v
        = (d v).filter (fun w => w.length = v.length) := enforceNodeDom_eq v (d v)
    rw [hchar] at hw
    exact (List.mem_filter.mp hw).1
  · intro v w hw
    exact ac3Loop_fst_subset cw fuel d (allArcs cw) v hw

/-- Witness for C6 at a concrete instance: a word surviving AC-3 on the
crossing puzzle was already in the initial domain. -/
theorem domains_only_shrink_at_instance : wcat ∈ initialDoms exCross vA :=
  (domains_only_shrink exCross 10 (initialDoms exCross)).2 vA wcat (by decide)

/-- C5: if `ac3` (seeded with all arcs) reports success, then every word
remaining in the domain of any variable has, for every neighbor, at least
one compatible word in the neighbor's domain at the overlap offsets. -/
theorem ac3_sound (cw : Crossword) (hwf : cw.WF) (fuel : Nat) (d : Doms)
    (hnd : ∀ v, (d v).Nodup) (htrue : (ac3 cw fuel d).2 = true) :
    ∀ x ∈ cw.vars, ∀ y ∈ cw.neighborsOf x, ∀ i j,
      cw.overlaps x y = some (i, j) →
      ∀ wx ∈ (ac3 cw fuel d).1 x, ∃ wy ∈ (ac3 cw fuel d).1 y,
        matchAt i j wx wy = true := by
  intro x hx y hy i j hov wx hwx
  have hys := hwf.neighbors_spec hx hy
  have h := ac3Loop_sound cw hwf fuel d (allArcs cw) hnd (InvAC_init cw hwf d)
    htrue x y hx hys.1 (by rw [hov]; rfl)
  exact h i j hov wx hwx

/-- Witness for C5 at a concrete instance: after a successful AC-3 run on
the crossing puzzle, "cat" in the domain of vA has a compatible partner
in the domain of vD. -/
theorem ac3_sound_at_instance :
    ∃ wy ∈ (ac3 exCross 10 (initialDoms exCross)).1 vD,
      matchAt 1 0 wcat wy = true :=
  ac3_sound exCross (by decide) 10 (initialDoms exCross)
    (fun _ => by show exCross.words.Nodup; decide)
    (by decide) vA (by decide) vD (by decide) 1 0 (by decide) wcat (by decide)

/-- Witness for C7 at a concrete instance: selection from the empty
assignment on the crossing puzzle. -/
theorem select_unassigned_variable_spec_at_instance :
    ∃ v, selectUnassignedVariable exCross (initialDoms exCross) [] = some v
      ∧ v ∈ exCross.vars
      ∧ isAssigned [] v = false
      ∧ ∀ u ∈ exCross.vars, isAssigned [] u = false →
          ((initialDoms exCross v).length < (initialDoms exCross u).length
            ∨ ((initialDoms exCross v).length = (initialDoms exCross u).length
                ∧ (exCross.neighborsOf u).length ≤ (exCross.neighborsOf v).length)) :=
  select_unassigned_variable_spec exCross (initialDoms exCross) []
    (by intro p hp; cases hp) (by decide)

/-- C1 (refuting evaluation): on the unsolvable two-slot puzzle `exTwo`
(two disjoint length-3 slots, word universe {"cat"}), `solve` returns an
assignment that is complete but NOT consistent — both slots receive the
same word "cat", violating pairwise distinctness. The cause is that
`backtrack` tests `self.consistent(assignment)` before adding the
candidate value instead of after, so the final added value is never
checked. -/
theorem solve_returns_inconsistent_assignment :
    solve exTwo 10 10 = some [(vB, wcat), (vA, wcat)]
      ∧ assignmentComplete exTwo [(vB, wcat), (vA, wcat)] = true
      ∧ consistent exTwo [(vB, wcat), (vA, wcat)] = false := by
  refine ⟨by decide, by decide, by decide⟩

/-- C2 (refuting evaluation): `backtrack`, entered at the partial
assignment {vA → "cat"}, tentatively adds vB → "cat" and returns the
augmented assignment even though that augmented assignment is
inconsistent: the code checks consistency of the assignment *before* the
candidate is added, never of the augmented assignment. -/
theorem backtrack_adds_inconsistent_candidate :
    consistent exTwo [(vB, wcat), (vA, wcat)] = false
      ∧ backtrack exTwo (initialDoms exTwo) 4 [(vA, wcat)]
          = some [(vB, wcat), (vA, wcat)] := by
  refine ⟨by decide, by decide⟩

/-- C3 (refuting evaluation): the puzzle `exTwo` is unsolvable — every
complete assignment drawing words from its word list is inconsistent —
yet `solve` does not return the no-solution sentinel: it returns a
(bogus) assignment instead. -/
theorem solve_not_none_on_unsolvable :
    (exTwo.words.all (fun w1 => exTwo.words.all (fun w2 =>
        !(consistent exTwo [(vA, w1), (vB, w2)]))) = true)
      ∧ ¬ (solve exTwo 10 10 = none) := by
  refine ⟨by decide, by decide⟩
